import Mathlib

/-!
# nrrw-process: a random walk on a graph that grows while it is walked

Shallow embedding of `src/main.cpp`.

* `graph_t` embeds `boost::adjacency_list<listS, vecS, undirectedS>`: the
  vertices are the indices `0 .. n-1` of a vector (`vecS`), each vertex owns
  the list of its out-edge records (`listS`), and the graph owns one global
  list of edges.  For an undirected graph `add_edge(u, v, g)` appends the edge
  to the global list, then appends a record `(v, e)` to the out-edge list of
  `u` and a record `(u, e)` to the out-edge list of `v`; for `u = v` both
  records land in the same list.
* `random_selector` holds a generator; the generator is embedded as the stream
  of its future raw outputs, and the value that
  `uniform_int_distribution(0, n - 1)` draws as the next raw output reduced
  into `[0, n - 1]`.
* `unsigned int` is 32 bits wide: `counter++` wraps modulo `2 ^ 32`.
* `parameter` is a reference member in the source.  In `nrrw_process` it is
  embedded as the value it refers to; `held_process` adds whether the object
  referred to still exists, which it does not for the processes of `main`.
* Operations whose behaviour is undefined in C++ (an empty selection range,
  an out-of-range vertex, `% 0`) return a `Fault`.
-/

namespace Nrrw

/-- Width of `unsigned int`. -/
def UINT_SIZE : Nat := 2 ^ 32

/-- Ways in which the code can leave defined behaviour. -/
inductive Fault where
  /-- Use of a vertex descriptor that is not a vertex of the graph. -/
  | invalid_vertex
  /-- The selector is asked to draw from an empty range, `dist(0, -1)`. -/
  | empty_range
  /-- Evaluation of `counter % parameter` with `parameter == 0`. -/
  | modulo_by_zero
  /-- The loop bound of the model was exhausted. -/
  | out_of_fuel
  /-- Checked access `at(i)` to a vector with an index beyond its end. -/
  | out_of_range
  /-- Read through a reference whose object has been destroyed. -/
  | dangling_reference
  deriving DecidableEq, Repr

/-- An out-edge record stored at a vertex: the vertex at the other end and the
position of the edge in the global edge list. -/
structure stored_edge where
  m_target : Nat
  m_edge : Nat
  deriving DecidableEq, Repr

/-- The graph type `graph_t`. -/
structure graph_t where
  /-- Global edge list, `(source, target)` in insertion order. -/
  m_edges : List (Nat × Nat)
  /-- One out-edge list per vertex, in vertex-creation order. -/
  m_vertices : List (List stored_edge)
  deriving DecidableEq, Repr

namespace graph_t

/-- The default-constructed graph. -/
def empty : graph_t := { m_edges := [], m_vertices := [] }

/-- Embeds `boost::num_vertices`. -/
def num_vertices (g : graph_t) : Nat := g.m_vertices.length

/-- Embeds `boost::num_edges`. -/
def num_edges (g : graph_t) : Nat := g.m_edges.length

/-- Embeds `boost::vertices`: the descriptors in creation order. -/
def vertices (g : graph_t) : List Nat := List.range g.num_vertices

/-- Embeds `boost::add_vertex`: a new vertex without edges, whose descriptor is
the old vertex count. -/
def add_vertex (g : graph_t) : graph_t × Nat :=
  ({ g with m_vertices := g.m_vertices ++ [[]] }, g.m_vertices.length)

/-- Appends a record to the out-edge list of vertex `u`. -/
def push_out_edge : List (List stored_edge) → Nat → stored_edge → List (List stored_edge)
  | [], _, _ => []
  | l :: ls, 0, e => (l ++ [e]) :: ls
  | l :: ls, u + 1, e => l :: push_out_edge ls u e

/-- Grows the vertex vector to at least `n` vertices, as `add_edge` does for
a `vecS` graph when an endpoint is beyond the end. -/
def resize (vs : List (List stored_edge)) (n : Nat) : List (List stored_edge) :=
  vs ++ List.replicate (n - vs.length) []

/-- Embeds `boost::add_edge(u, v, g)` for the undirected graph. -/
def add_edge (u v : Nat) (g : graph_t) : graph_t :=
  let e := g.m_edges.length
  let vs := resize g.m_vertices (max u v + 1)
  let vs := push_out_edge vs u { m_target := v, m_edge := e }
  let vs := push_out_edge vs v { m_target := u, m_edge := e }
  { m_edges := g.m_edges ++ [(u, v)], m_vertices := vs }

/-- Embeds `boost::out_edges(v, g)`: the out-edge records of `v`. -/
def out_edges (v : Nat) (g : graph_t) : Except Fault (List stored_edge) :=
  match g.m_vertices[v]? with
  | some l => .ok l
  | none => .error .invalid_vertex

/-- Embeds `boost::out_degree(v, g)`: the length of the out-edge list of `v`
(of an absent vertex: `0`). -/
def out_degree (v : Nat) (g : graph_t) : Nat :=
  (g.m_vertices.getD v []).length

/-- Embeds `boost::target(e, g)` for an edge reached through an out-edge
iterator. -/
def target (e : stored_edge) (_g : graph_t) : Nat := e.m_target

end graph_t

/-- The generator of a `random_selector`: the stream of its future outputs. -/
abbrev RandomGenerator := Nat → Nat

/-- Embeds `random_selector::select(start, end)`: the element at a uniformly
drawn index of the range, together with the advanced generator. -/
def random_selector.select {α : Type} (gen : RandomGenerator) (range : List α) :
    Except Fault (α × RandomGenerator) :=
  match range[gen 0 % range.length]? with
  | some x => .ok (x, fun i => gen (i + 1))
  | none => .error .empty_range

/-- The state of a `nrrw_process`. -/
structure nrrw_process where
  graph : graph_t
  current : Nat
  selector : RandomGenerator
  counter : Nat
  parameter : Nat

namespace nrrw_process

/-- Embeds the constructor `nrrw_process(p)`; `gen` is the generator that the
default-constructed selector seeds itself with. -/
def new (p : Nat) (gen : RandomGenerator) : nrrw_process :=
  let (g, current) := graph_t.add_vertex graph_t.empty
  { graph := graph_t.add_edge current current g
    current := current
    selector := gen
    counter := 0
    parameter := p }

/-- Embeds `nrrw_process::degree`.  The size of the out-edge list is returned
as an `unsigned int`, which is the size itself as long as a vertex has fewer
than `2 ^ 32` records. -/
def degree (s : nrrw_process) (vertex : Nat) : Nat :=
  graph_t.out_degree vertex s.graph

/-- Embeds `nrrw_process::get_degrees`. -/
def get_degrees (s : nrrw_process) : List Nat :=
  s.graph.vertices.map (fun v => s.degree v)

/-- Embeds `nrrw_process::step`: the returned counter and the new state. -/
def step (s : nrrw_process) : Except Fault (Nat × nrrw_process) :=
  match graph_t.out_edges s.current s.graph with
  | .error f => .error f
  | .ok range =>
    match random_selector.select s.selector range with
    | .error f => .error f
    | .ok (random_edge, gen) =>
      let current := graph_t.target random_edge s.graph
      let counter := (s.counter + 1) % UINT_SIZE
      if s.parameter = 0 then .error .modulo_by_zero
      else if counter % s.parameter = 0 then
        let (g, new_vertex) := graph_t.add_vertex s.graph
        .ok (counter,
          { graph := graph_t.add_edge current new_vertex g
            current := current, selector := gen, counter := counter
            parameter := s.parameter })
      else
        .ok (counter,
          { graph := s.graph
            current := current, selector := gen, counter := counter
            parameter := s.parameter })

/-- The loop `while (step() < steps) {}`, cut off after `fuel` runs of its
body. -/
def simulate_loop : Nat → Nat → nrrw_process → Except Fault nrrw_process
  | 0, _, _ => .error .out_of_fuel
  | fuel + 1, steps, s =>
    match step s with
    | .error f => .error f
    | .ok (c, s') => if c < steps then simulate_loop fuel steps s' else .ok s'

/-- Embeds `nrrw_process::simulate`.  The counter starts at `0`, grows by one
per step and the loop ends when it reaches `steps`, itself below `2 ^ 32`, so
`2 ^ 32` runs of the body are never exceeded. -/
def simulate (steps : Nat) (s : nrrw_process) : Except Fault nrrw_process :=
  simulate_loop UINT_SIZE steps { s with counter := 0 }

/-- A call of the `const` member function `get_degrees`: the vector it
returns and the process after the call. -/
def get_degrees_call (s : nrrw_process) : List Nat × nrrw_process :=
  (s.get_degrees, s)

end nrrw_process

/-- The conversion of an `int` to `unsigned int`. -/
def to_unsigned (x : Int) : Nat := (x % (UINT_SIZE : Int)).toNat

/-- A process as `main` holds it: the process, and whether the `unsigned int`
object that its reference member `parameter` is bound to still exists.  The
field `parameter` of the process is the value that object was created with. -/
structure held_process where
  process : nrrw_process
  parameter_alive : Bool

namespace held_process

/-- The expression `new nrrw_process(parameter)` of `main`.  The constructor
takes a `const unsigned int&` and `parameter` is a `const int`, so the
reference is bound to a temporary `unsigned int` with the converted value, and
the member `parameter` of the new process refers to that temporary. -/
def construct (parameter : Int) (gen : RandomGenerator) : held_process :=
  { process := nrrw_process.new (to_unsigned parameter) gen, parameter_alive := true }

/-- The end of the statement in which the process was constructed: the
temporaries of the statement are destroyed. -/
def end_of_statement (h : held_process) : held_process :=
  { h with parameter_alive := false }

/-- A call `process->simulate(steps)`.  While the object behind `parameter`
exists this is `nrrw_process::simulate`.  Once it is destroyed, the first step
still selects an edge, moves the walker and increments the counter, and then
reads `parameter` for `counter % parameter` through the dangling reference. -/
def simulate (steps : Nat) (h : held_process) : Except Fault held_process :=
  if h.parameter_alive then
    match nrrw_process.simulate steps h.process with
    | .error f => .error f
    | .ok s => .ok { h with process := s }
  else
    match nrrw_process.step { h.process with counter := 0 } with
    | .error .modulo_by_zero => .error .dangling_reference
    | .error f => .error f
    | .ok _ => .error .dangling_reference

end held_process

/-- What the two loops of `main` work on: the vector `simulations`, and the
degree files written so far, each with its run index and its lines, in the
order in which they were completed. -/
structure batch where
  simulations : List held_process
  files : List (Nat × List Nat)

/-- The first loop of `main`: `count` processes are constructed in turn, each
in a `push_back` statement of its own, the `i`-th one seeding its selector
with the generator `seeds i`. -/
def construct_simulations (parameter count : Int) (seeds : Nat → RandomGenerator) :
    List held_process :=
  (List.range count.toNat).map
    (fun i => (held_process.construct parameter (seeds i)).end_of_statement)

/-- The body of the second loop of `main` for the run index `i`. -/
def loop_body (steps : Int) (i : Nat) (b : batch) : Except Fault batch :=
  match b.simulations[i]? with
  | none => .error .out_of_range
  | some process =>
    match process.simulate (to_unsigned steps) with
    | .error f => .error f
    | .ok simulated =>
      let degrees := (nrrw_process.get_degrees_call simulated.process).1
      .ok { simulations := b.simulations.set i
              { simulated with process := (nrrw_process.get_degrees_call simulated.process).2 }
            files := b.files ++ [(i, degrees)] }

/-- The second loop of `main`, its bodies run in the given order of the run
indices. -/
def run_order (steps : Int) : List Nat → batch → Except Fault batch
  | [], b => .ok b
  | i :: rest, b =>
    match loop_body steps i b with
    | .error f => .error f
    | .ok b' => run_order steps rest b'

/-- Embeds the batch part of `main`: `parameter`, `steps` and `count` are the
`int` values read from the command line, and the loop over the run indices is
taken in ascending order. -/
def main (parameter steps count : Int) (seeds : Nat → RandomGenerator) :
    Except Fault batch :=
  let simulations := construct_simulations parameter count seeds
  run_order steps (List.range simulations.length) { simulations := simulations, files := [] }

/-! ## Specification-side notions -/

namespace graph_t

/-- Number of edge endpoints at `v`: every edge of the global edge list counts
once for each of its two ends that is `v`, so a self-loop counts twice. -/
def incident_endpoints (v : Nat) (g : graph_t) : Nat :=
  (g.m_edges.map (fun e => (if e.1 = v then 1 else 0) + (if e.2 = v then 1 else 0))).sum

/-- Some edge of the graph joins `u` and `v`. -/
def adjacent (g : graph_t) (u v : Nat) : Prop :=
  (u, v) ∈ g.m_edges ∨ (v, u) ∈ g.m_edges

/-- A path of edges leads from `u` to `v`. -/
def joined (g : graph_t) (u v : Nat) : Prop :=
  Relation.ReflTransGen g.adjacent u v

/-- Every vertex is joined to the initial vertex, the one created first. -/
def connected (g : graph_t) : Prop :=
  ∀ v, v < g.num_vertices → g.joined 0 v

/-- Sum of the out-degrees of all vertices. -/
def degree_sum (g : graph_t) : Nat :=
  (g.m_vertices.map List.length).sum

/-- What the constructor establishes and growth keeps, on the graph alone. -/
structure sound (g : graph_t) : Prop where
  pos : 0 < g.num_vertices
  nonempty : ∀ l, l ∈ g.m_vertices → l ≠ []
  targets : ∀ l, l ∈ g.m_vertices → ∀ e, e ∈ l → e.m_target < g.num_vertices
  handshake : g.degree_sum = 2 * g.num_edges
  endpoints : ∀ i, g.out_degree i = g.incident_endpoints i
  connected : g.connected
  edges_eq : g.num_edges = g.num_vertices

/-- Nothing of `g` is missing in `g'`: the vertices of `g` are vertices of
`g'`, the edge list of `g` is the front part of the edge list of `g'`, and no
vertex has a smaller degree in `g'`. -/
structure within (g g' : graph_t) : Prop where
  vertices_le : g.num_vertices ≤ g'.num_vertices
  edges_le : g.num_edges ≤ g'.num_edges
  vertices_kept : ∀ v, v ∈ g.vertices → v ∈ g'.vertices
  edges_kept : ∃ added, g'.m_edges = g.m_edges ++ added
  degree_le : ∀ v, g.out_degree v ≤ g'.out_degree v

/-- Every out-edge record stored at a vertex `i` names an edge of the edge
list that joins `i` and the target of the record. -/
def linked (g : graph_t) : Prop :=
  ∀ (i : Nat) (l : List stored_edge), g.m_vertices[i]? = some l → ∀ r : stored_edge, r ∈ l →
    g.m_edges[r.m_edge]? = some (i, r.m_target) ∨ g.m_edges[r.m_edge]? = some (r.m_target, i)

/-- The edge list is that of a tree with a self-loop at its root: the first
edge is the self-loop on vertex `0`, and the `j`-th edge, `j ≥ 1`, joins the
vertex `j` to a vertex with a smaller index. -/
def tree_shaped (g : graph_t) : Prop :=
  ∀ j u v, g.m_edges[j]? = some (u, v) → v = j ∧ (j = 0 ∧ u = 0 ∨ u < j)

/-- The out-edge list of the initial vertex begins with the two records of
the self-loop. -/
def loop_first (g : graph_t) : Prop :=
  ∃ rest, g.m_vertices[0]? =
    some ({ m_target := 0, m_edge := 0 } :: { m_target := 0, m_edge := 0 } :: rest)

/-- The graph `g` with one more vertex, joined by one more edge to `c`. -/
def grown (g : graph_t) (c : Nat) : graph_t :=
  { m_edges := g.m_edges ++ [(c, g.num_vertices)]
    m_vertices :=
      push_out_edge g.m_vertices c { m_target := g.num_vertices, m_edge := g.num_edges }
        ++ [[{ m_target := c, m_edge := g.num_edges }]] }

end graph_t

namespace nrrw_process

/-- The state after a step that selected the out-edge record `r`. -/
def step_result (s : nrrw_process) (r : stored_edge) : nrrw_process :=
  { graph :=
      if (s.counter + 1) % UINT_SIZE % s.parameter = 0 then
        graph_t.add_edge r.m_target (graph_t.add_vertex s.graph).2 (graph_t.add_vertex s.graph).1
      else s.graph
    current := r.m_target
    selector := fun i => s.selector (i + 1)
    counter := (s.counter + 1) % UINT_SIZE
    parameter := s.parameter }

/-- The states a process can be in: the one the constructor builds, and those
that `step` and the counter reset of `simulate` lead to. -/
inductive reachable : nrrw_process → Prop
  | new (p : Nat) (gen : RandomGenerator) : reachable (new p gen)
  | step {s s' : nrrw_process} {c : Nat} : reachable s → step s = .ok (c, s') → reachable s'
  | reset {s : nrrw_process} : reachable s → reachable { s with counter := 0 }

/-- The outcome of `n` calls of `step` in a row. -/
def step_n : Nat → nrrw_process → Except Fault nrrw_process
  | 0, s => .ok s
  | n + 1, s =>
    match step s with
    | .error f => .error f
    | .ok (_, s') => step_n n s'

/-- The graph is sound and the walker stands on one of its vertices. -/
structure valid (s : nrrw_process) : Prop where
  graph_sound : s.graph.sound
  current_lt : s.current < s.graph.num_vertices

end nrrw_process

/-! ## Lemmas on the graph operations -/

namespace graph_t

theorem push_out_edge_length (vs : List (List stored_edge)) (u : Nat) (e : stored_edge) :
    (push_out_edge vs u e).length = vs.length := by
  induction vs generalizing u with
  | nil => rfl
  | cons l ls ih =>
    cases u with
    | zero => rfl
    | succ u => simp [push_out_edge, ih]

theorem push_out_edge_sum (vs : List (List stored_edge)) (u : Nat) (e : stored_edge)
    (hu : u < vs.length) :
    ((push_out_edge vs u e).map List.length).sum = (vs.map List.length).sum + 1 := by
  induction vs generalizing u with
  | nil => simp at hu
  | cons l ls ih =>
    cases u with
    | zero => simp [push_out_edge]; omega
    | succ u =>
      have hu' : u < ls.length := by simpa using hu
      simp [push_out_edge, ih u hu']; omega

theorem push_out_edge_getElem? (vs : List (List stored_edge)) (u i : Nat) (e : stored_edge) :
    (push_out_edge vs u e)[i]? = if i = u then vs[i]?.map (fun l => l ++ [e]) else vs[i]? := by
  induction vs generalizing u i with
  | nil => simp [push_out_edge]
  | cons l ls ih =>
    cases u with
    | zero =>
      cases i with
      | zero => simp [push_out_edge]
      | succ i => simp [push_out_edge]
    | succ u =>
      cases i with
      | zero => simp [push_out_edge]
      | succ i => simp [push_out_edge, ih]

theorem push_out_edge_mem (vs : List (List stored_edge)) (u : Nat) (e : stored_edge)
    (l : List stored_edge) (hl : l ∈ push_out_edge vs u e) :
    l ∈ vs ∨ ∃ l0, l0 ∈ vs ∧ l = l0 ++ [e] := by
  induction vs generalizing u with
  | nil => simp [push_out_edge] at hl
  | cons a ls ih =>
    cases u with
    | zero =>
      simp only [push_out_edge, List.mem_cons] at hl
      rcases hl with h | h
      · exact Or.inr ⟨a, by simp, h⟩
      · exact Or.inl (by simp [h])
    | succ u =>
      simp only [push_out_edge, List.mem_cons] at hl
      rcases hl with h | h
      · exact Or.inl (by simp [h])
      · rcases ih u h with h1 | ⟨l0, h0, h1⟩
        · exact Or.inl (by simp [h1])
        · exact Or.inr ⟨l0, by simp [h0], h1⟩

theorem push_out_edge_append_left (vs ws : List (List stored_edge)) (u : Nat) (e : stored_edge)
    (hu : u < vs.length) :
    push_out_edge (vs ++ ws) u e = push_out_edge vs u e ++ ws := by
  induction vs generalizing u with
  | nil => simp at hu
  | cons l ls ih =>
    cases u with
    | zero => simp [push_out_edge]
    | succ u =>
      have hu' : u < ls.length := by simpa using hu
      simp [push_out_edge, ih u hu']

theorem push_out_edge_append_right (vs ws : List (List stored_edge)) (l : List stored_edge)
    (e : stored_edge) :
    push_out_edge (vs ++ l :: ws) vs.length e = vs ++ (l ++ [e]) :: ws := by
  induction vs with
  | nil => simp [push_out_edge]
  | cons a ls ih => simp [push_out_edge, ih]

theorem resize_of_le (vs : List (List stored_edge)) (n : Nat) (h : n ≤ vs.length) :
    resize vs n = vs := by
  simp [resize, Nat.sub_eq_zero_of_le h]

/-- The graph after the growth of `step`: a new vertex, joined to `c`. -/
theorem add_edge_add_vertex (g : graph_t) (c : Nat) (hc : c < g.num_vertices) :
    add_edge c (add_vertex g).2 (add_vertex g).1 =
      ({ m_edges := g.m_edges ++ [(c, g.num_vertices)]
         m_vertices :=
          push_out_edge g.m_vertices c { m_target := g.num_vertices, m_edge := g.num_edges }
            ++ [[{ m_target := c, m_edge := g.num_edges }]] } : graph_t) := by
  unfold num_vertices at hc
  have hmax : max c g.m_vertices.length = g.m_vertices.length := by omega
  have hlen : (push_out_edge g.m_vertices c
      { m_target := g.m_vertices.length, m_edge := g.m_edges.length }).length
      = g.m_vertices.length := push_out_edge_length _ _ _
  simp only [add_edge, add_vertex, num_vertices, num_edges, hmax]
  rw [resize_of_le _ _ (by simp), push_out_edge_append_left _ _ _ _ hc]
  congr 1
  have := push_out_edge_append_right (push_out_edge g.m_vertices c
      { m_target := g.m_vertices.length, m_edge := g.m_edges.length }) [] []
      { m_target := c, m_edge := g.m_edges.length }
  rw [hlen] at this
  simpa using this

theorem grown_num_vertices (g : graph_t) (c : Nat) :
    (g.grown c).num_vertices = g.num_vertices + 1 := by
  simp [grown, num_vertices, push_out_edge_length]

theorem grown_num_edges (g : graph_t) (c : Nat) :
    (g.grown c).num_edges = g.num_edges + 1 := by
  simp [grown, num_edges]

theorem grown_degree_sum (g : graph_t) (c : Nat) (hc : c < g.num_vertices) :
    (g.grown c).degree_sum = g.degree_sum + 2 := by
  simp [grown, degree_sum, push_out_edge_sum _ _ _ hc]

theorem grown_incident_endpoints (g : graph_t) (c i : Nat) :
    (g.grown c).incident_endpoints i =
      g.incident_endpoints i + ((if c = i then 1 else 0) + (if g.num_vertices = i then 1 else 0)) := by
  simp [grown, incident_endpoints]

theorem out_degree_eq (g : graph_t) (i : Nat) :
    g.out_degree i = (g.m_vertices[i]?.getD []).length := by
  simp [out_degree, List.getD_eq_getElem?_getD]

theorem grown_out_degree (g : graph_t) (c i : Nat) (hc : c < g.num_vertices) :
    (g.grown c).out_degree i =
      g.out_degree i + ((if c = i then 1 else 0) + (if g.num_vertices = i then 1 else 0)) := by
  unfold num_vertices at hc
  rw [out_degree_eq, out_degree_eq]
  simp only [grown, num_vertices]
  rcases Nat.lt_trichotomy i g.m_vertices.length with h | h | h
  · rw [List.getElem?_append_left (by simpa [push_out_edge_length] using h),
      push_out_edge_getElem?]
    have hne : g.m_vertices.length ≠ i := by omega
    by_cases hci : c = i
    · subst hci
      simp [hne, List.getElem?_eq_getElem h]
    · have hic : i ≠ c := fun h => hci h.symm
      simp [hne, hci, hic]
  · subst h
    have hcn : c ≠ g.m_vertices.length := by omega
    rw [List.getElem?_append_right (by simp [push_out_edge_length])]
    simp [push_out_edge_length, hcn]
  · have hcn : c ≠ i := by omega
    have hne : g.m_vertices.length ≠ i := by omega
    rw [List.getElem?_eq_none (by simp [push_out_edge_length]; omega),
      List.getElem?_eq_none (by omega)]
    simp [hcn, hne]

theorem adjacent_grown (g : graph_t) (c u v : Nat) (h : g.adjacent u v) :
    (g.grown c).adjacent u v := by
  rcases h with h | h
  · exact Or.inl (by simp [grown, h])
  · exact Or.inr (by simp [grown, h])

theorem joined_grown (g : graph_t) (c u v : Nat) (h : g.joined u v) :
    (g.grown c).joined u v :=
  Relation.ReflTransGen.mono (fun a b hab => adjacent_grown g c a b hab) h

theorem connected_grown (g : graph_t) (c : Nat) (hc : c < g.num_vertices)
    (h : g.connected) : (g.grown c).connected := by
  intro v hv
  rw [grown_num_vertices] at hv
  rcases Nat.lt_or_ge v g.num_vertices with hlt | hge
  · exact joined_grown g c 0 v (h v hlt)
  · have hv' : v = g.num_vertices := by omega
    subst hv'
    exact Relation.ReflTransGen.tail (joined_grown g c 0 c (h c hc))
      (Or.inl (by simp [grown]))

theorem sound_grown (g : graph_t) (c : Nat) (hc : c < g.num_vertices) (h : g.sound) :
    (g.grown c).sound where
  pos := by rw [grown_num_vertices]; omega
  nonempty := by
    intro l hl
    simp only [grown, List.mem_append, List.mem_singleton] at hl
    rcases hl with hl | hl
    · rcases push_out_edge_mem _ _ _ _ hl with h1 | ⟨l0, _, h1⟩
      · exact h.nonempty l h1
      · simp [h1]
    · simp [hl]
  targets := by
    intro l hl e he
    rw [grown_num_vertices]
    simp only [grown, List.mem_append, List.mem_singleton] at hl
    rcases hl with hl | hl
    · rcases push_out_edge_mem _ _ _ _ hl with h1 | ⟨l0, h0, h1⟩
      · exact Nat.lt_succ_of_lt (h.targets l h1 e he)
      · subst h1
        simp only [List.mem_append, List.mem_singleton] at he
        rcases he with he | he
        · exact Nat.lt_succ_of_lt (h.targets l0 h0 e he)
        · simp [he]
    · subst hl
      simp only [List.mem_singleton] at he
      subst he
      exact Nat.lt_succ_of_lt hc
  handshake := by
    rw [grown_degree_sum g c hc, grown_num_edges, h.handshake]; omega
  endpoints := by
    intro i
    rw [grown_out_degree g c i hc, grown_incident_endpoints, h.endpoints]
  connected := connected_grown g c hc h.connected
  edges_eq := by rw [grown_num_edges, grown_num_vertices, h.edges_eq]

end graph_t

/-! ## Lemmas on the process -/

namespace nrrw_process

theorem step_iff (s s' : nrrw_process) (c : Nat) :
    step s = .ok (c, s') ↔
      ∃ range r, s.graph.m_vertices[s.current]? = some range ∧
        range[s.selector 0 % range.length]? = some r ∧ s.parameter ≠ 0 ∧
        c = (s.counter + 1) % UINT_SIZE ∧ s' = step_result s r := by
  unfold step graph_t.out_edges random_selector.select
  cases hv : s.graph.m_vertices[s.current]? with
  | none => simp
  | some range =>
    cases hr : range[s.selector 0 % range.length]? with
    | none => simp [hr]
    | some r =>
      by_cases hp : s.parameter = 0
      · simp [hr, hp]
      · by_cases hc : (s.counter + 1) % UINT_SIZE % s.parameter = 0
        · simp [hr, hp, hc, step_result, graph_t.target, graph_t.add_vertex, eq_comm]
        · simp [hr, hp, hc, step_result, graph_t.target, eq_comm]

theorem new_graph (p : Nat) (gen : RandomGenerator) :
    (new p gen).graph =
      { m_edges := [(0, 0)]
        m_vertices := [[{ m_target := 0, m_edge := 0 }, { m_target := 0, m_edge := 0 }]] } := by
  rfl

theorem valid_new (p : Nat) (gen : RandomGenerator) : (new p gen).valid where
  graph_sound :=
    { pos := by rw [new_graph]; decide
      nonempty := by rw [new_graph]; simp
      targets := by rw [new_graph]; simp [graph_t.num_vertices]
      handshake := by rw [new_graph]; rfl
      endpoints := by
        intro i
        rw [new_graph, graph_t.out_degree_eq]
        cases i with
        | zero => rfl
        | succ i => simp [graph_t.incident_endpoints]
      connected := by
        intro v hv
        rw [new_graph] at hv
        have hv0 : v = 0 := by simpa [graph_t.num_vertices] using hv
        subst hv0
        exact Relation.ReflTransGen.refl
      edges_eq := by rw [new_graph]; rfl }
  current_lt := by
    show 0 < (new p gen).graph.num_vertices
    rw [new_graph]; decide

theorem step_result_graph (s : nrrw_process) (r : stored_edge)
    (hr : r.m_target < s.graph.num_vertices) :
    (step_result s r).graph =
      if (s.counter + 1) % UINT_SIZE % s.parameter = 0 then s.graph.grown r.m_target
      else s.graph := by
  simp only [step_result]
  split
  · rw [graph_t.add_edge_add_vertex _ _ hr]; rfl
  · rfl

theorem valid_step_result (s : nrrw_process) (r : stored_edge) (h : s.valid)
    (hr : r.m_target < s.graph.num_vertices) : (step_result s r).valid := by
  have hg := step_result_graph s r hr
  have hcur : (step_result s r).current = r.m_target := rfl
  constructor
  · rw [hg]
    split
    · exact graph_t.sound_grown _ _ hr h.graph_sound
    · exact h.graph_sound
  · rw [hg, hcur]
    split
    · rw [graph_t.grown_num_vertices]; omega
    · exact hr

/-- The record a step selects points to a vertex of the graph. -/
theorem selected_target_lt (s : nrrw_process) (h : s.valid) (range : List stored_edge)
    (r : stored_edge) (hv : s.graph.m_vertices[s.current]? = some range) (k : Nat)
    (hr : range[k]? = some r) : r.m_target < s.graph.num_vertices :=
  h.graph_sound.targets range (List.getElem?_mem hv) r (List.getElem?_mem hr)

theorem valid_step (s s' : nrrw_process) (c : Nat) (h : s.valid)
    (hs : step s = .ok (c, s')) : s'.valid := by
  obtain ⟨range, r, hv, hr, _, _, rfl⟩ := (step_iff s s' c).1 hs
  exact valid_step_result s r h (selected_target_lt s h range r hv _ hr)

theorem valid_of_reachable (s : nrrw_process) (h : s.reachable) : s.valid := by
  induction h with
  | new p gen => exact valid_new p gen
  | step _ hs ih => exact valid_step _ _ _ ih hs
  | reset _ ih => exact ⟨ih.graph_sound, ih.current_lt⟩

/-- The out-edge list of the walker's vertex exists and is not empty. -/
theorem current_range (s : nrrw_process) (h : s.valid) :
    ∃ range, s.graph.m_vertices[s.current]? = some range ∧ range ≠ [] := by
  have hlt : s.current < s.graph.m_vertices.length := h.current_lt
  refine ⟨s.graph.m_vertices[s.current], List.getElem?_eq_getElem hlt, ?_⟩
  exact h.graph_sound.nonempty _ (List.getElem_mem hlt)

/-- On a valid state with a non-zero parameter `step` selects a record and
returns. -/
theorem step_succeeds (s : nrrw_process) (h : s.valid) (hp : s.parameter ≠ 0) :
    ∃ r, r.m_target < s.graph.num_vertices ∧
      step s = .ok ((s.counter + 1) % UINT_SIZE, step_result s r) := by
  obtain ⟨range, hv, hne⟩ := current_range s h
  have hpos : 0 < range.length := List.length_pos.2 hne
  have hk : s.selector 0 % range.length < range.length := Nat.mod_lt _ hpos
  refine ⟨range[s.selector 0 % range.length], ?_, ?_⟩
  · exact selected_target_lt s h range _ hv _ (List.getElem?_eq_getElem hk)
  · exact (step_iff s _ _).2 ⟨range, _, hv, List.getElem?_eq_getElem hk, hp, rfl, rfl⟩

theorem succ_div_eq (c p : Nat) :
    (c + 1) / p = c / p + if (c + 1) % p = 0 then 1 else 0 := by
  rw [Nat.succ_div]
  by_cases h : (c + 1) % p = 0
  · simp [h, Nat.dvd_of_mod_eq_zero h]
  · have hd : ¬ p ∣ c + 1 := fun hd => h (Nat.mod_eq_zero_of_dvd hd)
    simp [h, hd]

theorem step_result_num_vertices (s : nrrw_process) (r : stored_edge)
    (hr : r.m_target < s.graph.num_vertices) :
    (step_result s r).graph.num_vertices =
      s.graph.num_vertices + if (s.counter + 1) % UINT_SIZE % s.parameter = 0 then 1 else 0 := by
  rw [step_result_graph s r hr]
  split
  · rw [graph_t.grown_num_vertices]
  · rfl

/-- The loop of `simulate`, entered with the counter below `steps`, returns
once the counter is `steps`; it has then added one vertex for each multiple of
the parameter that the counter has passed. -/
theorem simulate_loop_spec (fuel steps : Nat) (s : nrrw_process) (h : s.valid)
    (hp : s.parameter ≠ 0) (hc : s.counter < steps) (hs : steps < UINT_SIZE)
    (hf : steps - s.counter ≤ fuel) :
    ∃ s', simulate_loop fuel steps s = .ok s' ∧ s'.valid ∧ s'.counter = steps ∧
      s'.parameter = s.parameter ∧
      s'.graph.num_vertices + s.counter / s.parameter =
        s.graph.num_vertices + steps / s.parameter := by
  induction fuel generalizing s with
  | zero => omega
  | succ fuel ih =>
    obtain ⟨r, hr, hstep⟩ := step_succeeds s h hp
    have hmod : (s.counter + 1) % UINT_SIZE = s.counter + 1 := Nat.mod_eq_of_lt (by omega)
    have hv := valid_step_result s r h hr
    have hn := step_result_num_vertices s r hr
    have hd := succ_div_eq s.counter s.parameter
    rw [hmod] at hn
    have hcnt : (step_result s r).counter = s.counter + 1 := hmod
    have hpar : (step_result s r).parameter = s.parameter := rfl
    simp only [simulate_loop, hstep, hmod]
    by_cases hlt : s.counter + 1 < steps
    · obtain ⟨s', h1, h2, h3, h4, h5⟩ :=
        ih (step_result s r) hv (by rw [hpar]; exact hp) (by rw [hcnt]; exact hlt)
          (by rw [hcnt]; omega)
      refine ⟨s', by simp [hlt, h1], h2, h3, by rw [h4, hpar], ?_⟩
      rw [hpar, hcnt] at h5
      omega
    · have heq : s.counter + 1 = steps := by omega
      refine ⟨step_result s r, by simp [hlt], hv, by rw [hcnt, heq], hpar, ?_⟩
      rw [← heq]
      omega

theorem simulate_loop_reachable (fuel steps : Nat) (s s' : nrrw_process)
    (h : s.reachable) (hs : simulate_loop fuel steps s = .ok s') : s'.reachable := by
  induction fuel generalizing s with
  | zero => simp [simulate_loop] at hs
  | succ fuel ih =>
    simp only [simulate_loop] at hs
    cases hstep : step s with
    | error f => simp [hstep] at hs
    | ok cs =>
      obtain ⟨c, t⟩ := cs
      simp only [hstep] at hs
      have ht : t.reachable := reachable.step h hstep
      by_cases hlt : c < steps
      · simp only [hlt, if_true] at hs
        exact ih t ht hs
      · simp only [hlt, if_false, Except.ok.injEq] at hs
        exact hs ▸ ht

theorem simulate_loop_succ (fuel steps : Nat) (s : nrrw_process) :
    simulate_loop (fuel + 1) steps s =
      match step s with
      | .error f => .error f
      | .ok (c, s') => if c < steps then simulate_loop fuel steps s' else .ok s' := rfl

theorem UINT_SIZE_succ : UINT_SIZE = (UINT_SIZE - 1) + 1 := by decide

/-- With a bound of `0` the loop does what it does with a bound of `1`: its
body runs before the bound is looked at. -/
theorem simulate_zero_eq (s : nrrw_process) : simulate 0 s = simulate 1 s := by
  unfold simulate
  rw [UINT_SIZE_succ]
  generalize UINT_SIZE - 1 = fuel
  rw [simulate_loop_succ, simulate_loop_succ]
  cases hstep : step { s with counter := 0 } with
  | error f => rfl
  | ok cs =>
    obtain ⟨c, t⟩ := cs
    obtain ⟨_, _, _, _, _, hc, _⟩ := (step_iff _ _ _).1 hstep
    have hc1 : c = 1 := hc
    subst hc1
    simp

/-- A call `simulate(steps)` with `1 ≤ steps` on a valid state returns, with
the counter at `steps` and `steps / parameter` more vertices. -/
theorem simulate_spec (steps : Nat) (s : nrrw_process) (h : s.valid)
    (hp : s.parameter ≠ 0) (h1 : 1 ≤ steps) (hs : steps < UINT_SIZE) :
    ∃ s', simulate steps s = .ok s' ∧ s'.valid ∧ s'.counter = steps ∧
      s'.parameter = s.parameter ∧
      s'.graph.num_vertices = s.graph.num_vertices + steps / s.parameter := by
  have hv : ({ s with counter := 0 } : nrrw_process).valid := ⟨h.graph_sound, h.current_lt⟩
  obtain ⟨s', h1, h2, h3, h4, h5⟩ :=
    simulate_loop_spec UINT_SIZE steps { s with counter := 0 } hv hp h1 hs
      (by show steps - 0 ≤ UINT_SIZE; omega)
  refine ⟨s', h1, h2, h3, h4, ?_⟩
  simpa using h5

/-- The same for a fresh process. -/
theorem simulate_new_spec (steps p : Nat) (gen : RandomGenerator) (hp : p ≠ 0)
    (h1 : 1 ≤ steps) (hs : steps < UINT_SIZE) :
    ∃ s', simulate steps (new p gen) = .ok s' ∧ s'.valid ∧ s'.counter = steps ∧
      s'.parameter = p ∧ s'.graph.num_vertices = 1 + steps / p :=
  simulate_spec steps (new p gen) (valid_new p gen) hp h1 hs

theorem simulate_reachable (steps : Nat) (s s' : nrrw_process) (h : s.reachable)
    (hs : simulate steps s = .ok s') : s'.reachable :=
  simulate_loop_reachable _ _ _ _ (reachable.reset h) hs

theorem get_degrees_eq (s : nrrw_process) :
    s.get_degrees = s.graph.m_vertices.map List.length := by
  apply List.ext_getElem
  · simp [get_degrees, graph_t.vertices, graph_t.num_vertices]
  · intro i h1 h2
    have hi : i < s.graph.m_vertices.length := by simpa using h2
    simp [get_degrees, graph_t.vertices, degree, graph_t.out_degree_eq,
      List.getElem?_eq_getElem hi]

theorem get_degrees_length (s : nrrw_process) :
    s.get_degrees.length = s.graph.num_vertices := by
  simp [get_degrees, graph_t.vertices]

theorem get_degrees_getElem? (s : nrrw_process) (i : Nat) (hi : i < s.graph.num_vertices) :
    s.get_degrees[i]? = some (s.degree i) := by
  simp [get_degrees, graph_t.vertices, hi]

theorem get_degrees_sum (s : nrrw_process) : s.get_degrees.sum = s.graph.degree_sum := by
  rw [get_degrees_eq]; rfl

theorem get_degrees_pos (s : nrrw_process) (h : s.valid) (d : Nat)
    (hd : d ∈ s.get_degrees) : 1 ≤ d := by
  rw [get_degrees_eq, List.mem_map] at hd
  obtain ⟨l, hl, rfl⟩ := hd
  exact List.length_pos.2 (h.graph_sound.nonempty l hl)

/-- The first step on a fresh process: both records at the initial vertex
lead back to it. -/
theorem step_new (p : Nat) (gen : RandomGenerator) (hp : p ≠ 0) :
    step { new p gen with counter := 0 } =
      .ok (1, step_result (new p gen) { m_target := 0, m_edge := 0 }) := by
  refine (step_iff _ _ _).2
    ⟨[{ m_target := 0, m_edge := 0 }, { m_target := 0, m_edge := 0 }],
      { m_target := 0, m_edge := 0 }, rfl, ?_, hp, rfl, rfl⟩
  show [({ m_target := 0, m_edge := 0 } : stored_edge), { m_target := 0, m_edge := 0 }][gen 0 % 2]?
    = some { m_target := 0, m_edge := 0 }
  rcases Nat.mod_two_eq_zero_or_one (gen 0) with h | h <;> rw [h] <;> rfl

theorem simulate_zero_new (p : Nat) (gen : RandomGenerator) (hp : p ≠ 0) :
    simulate 0 (new p gen) = .ok (step_result (new p gen) { m_target := 0, m_edge := 0 }) := by
  unfold simulate
  rw [UINT_SIZE_succ]
  generalize UINT_SIZE - 1 = fuel
  rw [simulate_loop_succ, step_new p gen hp]
  simp

/-- With parameter `0` a step on a valid state reaches `counter % parameter`. -/
theorem step_parameter_zero (s : nrrw_process) (h : s.valid) (hp : s.parameter = 0) :
    step s = .error .modulo_by_zero := by
  obtain ⟨range, hv, hne⟩ := current_range s h
  have hpos : 0 < range.length := List.length_pos.2 hne
  have hk : s.selector 0 % range.length < range.length := Nat.mod_lt _ hpos
  unfold step graph_t.out_edges random_selector.select
  simp [hv, List.getElem?_eq_getElem hk, hp]

theorem step_result_new_one_graph (gen : RandomGenerator) :
    (step_result (new 1 gen) { m_target := 0, m_edge := 0 }).graph =
      { m_edges := [(0, 0), (0, 1)]
        m_vertices :=
          [[{ m_target := 0, m_edge := 0 }, { m_target := 0, m_edge := 0 },
            { m_target := 1, m_edge := 1 }], [{ m_target := 0, m_edge := 1 }]] } := by
  have hc : ((new 1 gen).counter + 1) % UINT_SIZE % (new 1 gen).parameter = 0 :=
    Nat.mod_one _
  simp only [step_result, if_pos hc]
  rfl

/-- After one growth step from the fresh state with parameter `1`. -/
theorem step_new_one :
    step (new 1 (fun _ => 0)) =
      .ok (1, step_result (new 1 (fun _ => 0)) { m_target := 0, m_edge := 0 }) := rfl

end nrrw_process

/-! ## Lemmas on growth: what is kept, edge records, the shape of the edge list -/

namespace graph_t

theorem getElem?_append_of_some {α : Type} (l t : List α) (j : Nat) (x : α)
    (h : l[j]? = some x) : (l ++ t)[j]? = some x := by
  have hj : j < l.length := by
    by_contra hc
    rw [List.getElem?_eq_none (by omega)] at h
    cases h
  rw [List.getElem?_append_left hj]
  exact h

theorem within_refl (g : graph_t) : g.within g where
  vertices_le := Nat.le_refl _
  edges_le := Nat.le_refl _
  vertices_kept := fun _ hv => hv
  edges_kept := ⟨[], by simp⟩
  degree_le := fun _ => Nat.le_refl _

theorem within_trans (g1 g2 g3 : graph_t) (h12 : g1.within g2) (h23 : g2.within g3) :
    g1.within g3 where
  vertices_le := Nat.le_trans h12.vertices_le h23.vertices_le
  edges_le := Nat.le_trans h12.edges_le h23.edges_le
  vertices_kept := fun v hv => h23.vertices_kept v (h12.vertices_kept v hv)
  edges_kept := by
    obtain ⟨a, ha⟩ := h12.edges_kept
    obtain ⟨b, hb⟩ := h23.edges_kept
    exact ⟨a ++ b, by rw [hb, ha, List.append_assoc]⟩
  degree_le := fun v => Nat.le_trans (h12.degree_le v) (h23.degree_le v)

theorem within_grown (g : graph_t) (c : Nat) (hc : c < g.num_vertices) :
    g.within (g.grown c) where
  vertices_le := by rw [grown_num_vertices]; omega
  edges_le := by rw [grown_num_edges]; omega
  vertices_kept := by
    intro v hv
    simp only [vertices, List.mem_range, grown_num_vertices] at hv ⊢
    omega
  edges_kept := ⟨[(c, g.num_vertices)], rfl⟩
  degree_le := by
    intro v
    rw [grown_out_degree g c v hc]
    omega

theorem linked_grown (g : graph_t) (c : Nat) (hc : c < g.num_vertices) (h : g.linked) :
    (g.grown c).linked := by
  intro i l hl r hr
  unfold num_vertices at hc
  simp only [grown, num_vertices, num_edges] at hl ⊢
  have hnew : (g.m_edges ++ [(c, g.m_vertices.length)])[g.m_edges.length]?
      = some (c, g.m_vertices.length) := by simp
  rcases Nat.lt_trichotomy i g.m_vertices.length with hi | hi | hi
  · rw [List.getElem?_append_left (by simpa [push_out_edge_length] using hi),
      push_out_edge_getElem?] at hl
    have hold : ∀ l0, g.m_vertices[i]? = some l0 → r ∈ l0 →
        (g.m_edges ++ [(c, g.m_vertices.length)])[r.m_edge]? = some (i, r.m_target) ∨
        (g.m_edges ++ [(c, g.m_vertices.length)])[r.m_edge]? = some (r.m_target, i) := by
      intro l0 hl0 hr0
      rcases h i l0 hl0 r hr0 with h1 | h1
      · exact Or.inl (getElem?_append_of_some _ _ _ _ h1)
      · exact Or.inr (getElem?_append_of_some _ _ _ _ h1)
    by_cases hic : i = c
    · rw [if_pos hic, List.getElem?_eq_getElem hi] at hl
      simp only [Option.map_some', Option.some.injEq] at hl
      subst hl
      simp only [List.mem_append, List.mem_singleton] at hr
      rcases hr with hr | hr
      · exact hold _ (List.getElem?_eq_getElem hi) hr
      · subst hr
        subst hic
        exact Or.inl hnew
    · rw [if_neg hic] at hl
      exact hold l hl hr
  · subst hi
    rw [List.getElem?_append_right (by simp [push_out_edge_length])] at hl
    simp only [push_out_edge_length, Nat.sub_self, List.getElem?_cons_zero,
      Option.some.injEq] at hl
    subst hl
    simp only [List.mem_singleton] at hr
    subst hr
    exact Or.inr hnew
  · rw [List.getElem?_eq_none (by simp [push_out_edge_length]; omega)] at hl
    cases hl

theorem tree_shaped_grown (g : graph_t) (c : Nat) (hc : c < g.num_vertices)
    (he : g.num_edges = g.num_vertices) (h : g.tree_shaped) : (g.grown c).tree_shaped := by
  intro j u v hj
  unfold num_vertices at hc
  unfold num_edges num_vertices at he
  simp only [grown, num_vertices] at hj
  rcases Nat.lt_trichotomy j g.m_edges.length with hlt | heq | hgt
  · rw [List.getElem?_append_left hlt] at hj
    exact h j u v hj
  · subst heq
    simp only [List.getElem?_concat_length, Option.some.injEq, Prod.mk.injEq] at hj
    obtain ⟨hu, hv⟩ := hj
    subst hu
    subst hv
    exact ⟨he.symm, Or.inr (by omega)⟩
  · rw [List.getElem?_eq_none (by simp; omega)] at hj
    cases hj

end graph_t

namespace nrrw_process

theorem linked_new (p : Nat) (gen : RandomGenerator) : (new p gen).graph.linked := by
  rw [new_graph]
  intro i l hl r hr
  cases i with
  | zero =>
    simp only [List.getElem?_cons_zero, Option.some.injEq] at hl
    subst hl
    simp only [List.mem_cons, List.mem_singleton, List.not_mem_nil, or_false, or_self] at hr
    subst hr
    exact Or.inl rfl
  | succ i => simp at hl

theorem tree_shaped_new (p : Nat) (gen : RandomGenerator) : (new p gen).graph.tree_shaped := by
  rw [new_graph]
  intro j u v hj
  cases j with
  | zero =>
    simp only [List.getElem?_cons_zero, Option.some.injEq, Prod.mk.injEq] at hj
    obtain ⟨hu, hv⟩ := hj
    exact ⟨hv.symm, Or.inl ⟨rfl, hu.symm⟩⟩
  | succ j => simp at hj

/-- Every successful step leads to `step_result` at a record with a target
inside the graph. -/
theorem step_cases (s s' : nrrw_process) (c : Nat) (h : s.valid)
    (hs : step s = .ok (c, s')) :
    ∃ range r, s.graph.m_vertices[s.current]? = some range ∧
      range[s.selector 0 % range.length]? = some r ∧
      r.m_target < s.graph.num_vertices ∧ s.parameter ≠ 0 ∧
      c = (s.counter + 1) % UINT_SIZE ∧ s' = step_result s r := by
  obtain ⟨range, r, hv, hr, hp, hc, hs'⟩ := (step_iff s s' c).1 hs
  exact ⟨range, r, hv, hr, selected_target_lt s h range r hv _ hr, hp, hc, hs'⟩

theorem within_step (s s' : nrrw_process) (c : Nat) (h : s.valid)
    (hs : step s = .ok (c, s')) : s.graph.within s'.graph := by
  obtain ⟨_, r, _, _, hr, _, _, rfl⟩ := step_cases s s' c h hs
  rw [step_result_graph s r hr]
  split
  · exact graph_t.within_grown _ _ hr
  · exact graph_t.within_refl _

theorem linked_step (s s' : nrrw_process) (c : Nat) (h : s.valid) (hl : s.graph.linked)
    (hs : step s = .ok (c, s')) : s'.graph.linked := by
  obtain ⟨_, r, _, _, hr, _, _, rfl⟩ := step_cases s s' c h hs
  rw [step_result_graph s r hr]
  split
  · exact graph_t.linked_grown _ _ hr hl
  · exact hl

theorem tree_shaped_step (s s' : nrrw_process) (c : Nat) (h : s.valid)
    (ht : s.graph.tree_shaped) (hs : step s = .ok (c, s')) : s'.graph.tree_shaped := by
  obtain ⟨_, r, _, _, hr, _, _, rfl⟩ := step_cases s s' c h hs
  rw [step_result_graph s r hr]
  split
  · exact graph_t.tree_shaped_grown _ _ hr h.graph_sound.edges_eq ht
  · exact ht

theorem linked_of_reachable (s : nrrw_process) (h : s.reachable) : s.graph.linked := by
  induction h with
  | new p gen => exact linked_new p gen
  | step hr hs ih => exact linked_step _ _ _ (valid_of_reachable _ hr) ih hs
  | reset _ ih => exact ih

theorem tree_shaped_of_reachable (s : nrrw_process) (h : s.reachable) :
    s.graph.tree_shaped := by
  induction h with
  | new p gen => exact tree_shaped_new p gen
  | step hr hs ih => exact tree_shaped_step _ _ _ (valid_of_reachable _ hr) ih hs
  | reset _ ih => exact ih

theorem within_simulate_loop (fuel steps : Nat) (s s' : nrrw_process) (h : s.valid)
    (hs : simulate_loop fuel steps s = .ok s') : s.graph.within s'.graph := by
  induction fuel generalizing s with
  | zero => simp [simulate_loop] at hs
  | succ fuel ih =>
    rw [simulate_loop_succ] at hs
    cases hstep : step s with
    | error f => simp [hstep] at hs
    | ok cs =>
      obtain ⟨c, t⟩ := cs
      simp only [hstep] at hs
      have hw := within_step s t c h hstep
      by_cases hlt : c < steps
      · simp only [hlt, if_true] at hs
        exact graph_t.within_trans _ _ _ hw (ih t (valid_step s t c h hstep) hs)
      · simp only [hlt, if_false, Except.ok.injEq] at hs
        exact hs ▸ hw

theorem within_simulate (steps : Nat) (s s' : nrrw_process) (h : s.valid)
    (hs : simulate steps s = .ok s') : s.graph.within s'.graph :=
  within_simulate_loop UINT_SIZE steps { s with counter := 0 } s'
    ⟨h.graph_sound, h.current_lt⟩ hs

end nrrw_process

namespace nrrw_process

theorem step_n_succ (n : Nat) (s : nrrw_process) :
    step_n (n + 1) s =
      match step s with
      | .error f => .error f
      | .ok (_, s') => step_n n s' := rfl

/-- The loop of `simulate`, entered with the counter below `steps`, is the
run of `steps - counter` steps. -/
theorem simulate_loop_eq_step_n (fuel steps : Nat) (s : nrrw_process) (h : s.valid)
    (hp : s.parameter ≠ 0) (hc : s.counter < steps) (hs : steps < UINT_SIZE)
    (hf : steps - s.counter ≤ fuel) :
    ∃ s', simulate_loop fuel steps s = .ok s' ∧ step_n (steps - s.counter) s = .ok s' ∧
      s'.counter = steps := by
  induction fuel generalizing s with
  | zero => omega
  | succ fuel ih =>
    obtain ⟨r, hr, hstep⟩ := step_succeeds s h hp
    have hmod : (s.counter + 1) % UINT_SIZE = s.counter + 1 := Nat.mod_eq_of_lt (by omega)
    have hv := valid_step_result s r h hr
    have hcnt : (step_result s r).counter = s.counter + 1 := hmod
    have hpar : (step_result s r).parameter = s.parameter := rfl
    have hsub : steps - s.counter = (steps - (s.counter + 1)) + 1 := by omega
    rw [simulate_loop_succ, hsub, step_n_succ, hstep, hmod]
    by_cases hlt : s.counter + 1 < steps
    · obtain ⟨s', h1, h2, h3⟩ :=
        ih (step_result s r) hv (by rw [hpar]; exact hp) (by rw [hcnt]; exact hlt)
          (by rw [hcnt]; omega)
      rw [hcnt] at h2
      exact ⟨s', by simp [hlt, h1], h2, h3⟩
    · have heq : steps - (s.counter + 1) = 0 := by omega
      refine ⟨step_result s r, by simp [hlt], by rw [heq]; rfl, ?_⟩
      rw [hcnt]; omega

/-- A run of `n` steps that returns has added `n` to the counter, as long as
the counter does not wrap. -/
theorem step_n_counter (n : Nat) (s s' : nrrw_process) (hs : step_n n s = .ok s')
    (hn : s.counter + n < UINT_SIZE) : s'.counter = s.counter + n := by
  induction n generalizing s with
  | zero =>
    simp only [step_n, Except.ok.injEq] at hs
    rw [← hs]; rfl
  | succ n ih =>
    rw [step_n_succ] at hs
    cases hstep : step s with
    | error f => simp [hstep] at hs
    | ok cs =>
      obtain ⟨c, t⟩ := cs
      simp only [hstep] at hs
      obtain ⟨_, r, _, _, _, _, ht⟩ := (step_iff s t c).1 hstep
      have hcnt : t.counter = s.counter + 1 := by
        rw [ht]
        exact Nat.mod_eq_of_lt (by omega)
      rw [ih t hs (by rw [hcnt]; omega), hcnt]
      omega

/-- A call of `simulate` on a valid state with a non-zero parameter returns,
for every `steps` that an `unsigned int` can hold. -/
theorem simulate_ok (steps : Nat) (s : nrrw_process) (h : s.valid) (hp : s.parameter ≠ 0)
    (hs : steps < UINT_SIZE) :
    ∃ s', simulate steps s = .ok s' ∧ s'.valid ∧ s'.parameter = s.parameter := by
  rcases Nat.eq_zero_or_pos steps with h0 | h1
  · subst h0
    obtain ⟨s', k1, k2, _, k4, _⟩ := simulate_spec 1 s h hp (Nat.le_refl 1) (by decide)
    exact ⟨s', by rw [simulate_zero_eq]; exact k1, k2, k4⟩
  · obtain ⟨s', k1, k2, _, k4, _⟩ := simulate_spec steps s h hp h1 hs
    exact ⟨s', k1, k2, k4⟩

/-- The first edge of the edge list is the self-loop on the initial vertex. -/
theorem first_edge (s : nrrw_process) (h : s.valid) (ht : s.graph.tree_shaped) :
    s.graph.m_edges[0]? = some (0, 0) := by
  have hpos : 0 < s.graph.m_edges.length := by
    have h1 := h.graph_sound.pos
    have h2 := h.graph_sound.edges_eq
    unfold graph_t.num_edges at h2
    omega
  obtain ⟨hv, hu⟩ := ht 0 _ _ (List.getElem?_eq_getElem hpos)
  have hu0 : (s.graph.m_edges[0]).1 = 0 := by
    rcases hu with ⟨_, hu⟩ | hu
    · exact hu
    · omega
  rw [List.getElem?_eq_getElem hpos]
  exact congrArg some (Prod.ext hu0 hv)

theorem out_degree_of_ge (g : graph_t) (i : Nat) (h : g.num_vertices ≤ i) :
    g.out_degree i = 0 := by
  rw [graph_t.out_degree_eq, List.getElem?_eq_none h]
  rfl

end nrrw_process

namespace graph_t

theorem loop_first_grown (g : graph_t) (c : Nat) (hpos : 0 < g.num_vertices)
    (h : g.loop_first) : (g.grown c).loop_first := by
  obtain ⟨rest, hrest⟩ := h
  unfold num_vertices at hpos
  simp only [loop_first, grown]
  rw [List.getElem?_append_left (by simpa [push_out_edge_length] using hpos),
    push_out_edge_getElem?, hrest]
  by_cases hc : 0 = c
  · exact ⟨rest ++ [{ m_target := g.num_vertices, m_edge := g.num_edges }], by simp [hc]⟩
  · exact ⟨rest, by simp [hc]⟩

end graph_t

namespace nrrw_process

theorem loop_first_of_reachable (s : nrrw_process) (h : s.reachable) :
    s.graph.loop_first := by
  induction h with
  | new p gen => exact ⟨[], by rw [new_graph]; rfl⟩
  | step hr hs ih =>
    have hv := valid_of_reachable _ hr
    obtain ⟨_, r, _, _, hlt, _, _, rfl⟩ := step_cases _ _ _ hv hs
    rw [step_result_graph _ r hlt]
    split
    · exact graph_t.loop_first_grown _ _ hv.graph_sound.pos ih
    · exact ih
  | reset _ ih => exact ih

theorem out_edges_eq (s : nrrw_process) (v : Nat) (hv : v < s.graph.num_vertices) :
    ∃ range, graph_t.out_edges v s.graph = .ok range ∧ s.graph.m_vertices[v]? = some range ∧
      range.length = s.degree v := by
  have hlt : v < s.graph.m_vertices.length := hv
  refine ⟨s.graph.m_vertices[v], ?_, List.getElem?_eq_getElem hlt, ?_⟩
  · simp [graph_t.out_edges, List.getElem?_eq_getElem hlt]
  · simp [degree, graph_t.out_degree_eq, List.getElem?_eq_getElem hlt]

end nrrw_process

/-! ## Lemmas on the batch loop -/

theorem construct_simulations_length (parameter count : Int)
    (seeds : Nat → RandomGenerator) :
    (construct_simulations parameter count seeds).length = count.toNat := by
  simp [construct_simulations]

theorem construct_simulations_getElem? (parameter count : Int)
    (seeds : Nat → RandomGenerator) (i : Nat) (hi : i < count.toNat) :
    (construct_simulations parameter count seeds)[i]? =
      some (held_process.construct parameter (seeds i)).end_of_statement := by
  simp [construct_simulations, List.getElem?_range hi]

/-- While the object behind `parameter` exists, the call is the one of the
process. -/
theorem simulate_alive (steps : Nat) (h : held_process) (ha : h.parameter_alive = true)
    (s : nrrw_process) (hs : nrrw_process.simulate steps h.process = .ok s) :
    h.simulate steps = .ok { h with process := s } := by
  simp [held_process.simulate, ha, hs]

/-- On a valid process whose parameter object is destroyed, every call of
`simulate` reads through the dangling reference. -/
theorem simulate_dead (steps : Nat) (h : held_process) (hv : h.process.valid)
    (hd : h.parameter_alive = false) :
    h.simulate steps = .error .dangling_reference := by
  have hv0 : ({ h.process with counter := 0 } : nrrw_process).valid :=
    ⟨hv.graph_sound, hv.current_lt⟩
  by_cases hp : h.process.parameter = 0
  · have hz := nrrw_process.step_parameter_zero { h.process with counter := 0 } hv0 hp
    simp [held_process.simulate, hd, hz]
  · obtain ⟨r, _, hstep⟩ := nrrw_process.step_succeeds { h.process with counter := 0 } hv0 hp
    simp [held_process.simulate, hd, hstep]

/-- Every process that the first loop of `main` leaves in the vector is in
the state the constructor built, and the object behind its `parameter` is
destroyed. -/
theorem constructed_dead (parameter : Int) (gen : RandomGenerator) :
    (held_process.construct parameter gen).end_of_statement.parameter_alive = false ∧
      (held_process.construct parameter gen).end_of_statement.process =
        nrrw_process.new (to_unsigned parameter) gen ∧
      (held_process.construct parameter gen).end_of_statement.process.valid :=
  ⟨rfl, rfl, nrrw_process.valid_new _ _⟩

theorem loop_body_constructed (parameter steps count : Int) (seeds : Nat → RandomGenerator)
    (files : List (Nat × List Nat)) (i : Nat) (hi : i < count.toNat) :
    loop_body steps i
        { simulations := construct_simulations parameter count seeds, files := files } =
      .error .dangling_reference := by
  obtain ⟨hd, _, hv⟩ := constructed_dead parameter (seeds i)
  simp [loop_body, construct_simulations_getElem? parameter count seeds i hi,
    simulate_dead _ _ hv hd]

/-- Whatever the order of the loop bodies, the first one to run reads through
the dangling reference. -/
theorem run_order_constructed (parameter steps count : Int) (seeds : Nat → RandomGenerator)
    (i : Nat) (rest : List Nat) (hi : i < count.toNat) :
    run_order steps (i :: rest)
        { simulations := construct_simulations parameter count seeds, files := [] } =
      .error .dangling_reference := by
  simp [run_order, loop_body_constructed parameter steps count seeds [] i hi]

theorem main_constructed (parameter steps count : Int) (seeds : Nat → RandomGenerator)
    (hc : 0 < count.toNat) :
    main parameter steps count seeds = .error .dangling_reference := by
  obtain ⟨n, hn⟩ : ∃ n, count.toNat = n + 1 := ⟨count.toNat - 1, by omega⟩
  simp only [main, construct_simulations_length, hn, List.range_succ_eq_map]
  exact run_order_constructed parameter steps count seeds 0 _ hc

/-! ## Properties of the specification -/

open nrrw_process

/-- Claim C1, at the failing input `parameter = 1`, `steps = 0`: whatever the
random draws, `simulate(0)` on a fresh process returns with 2 vertices, not
with the `1 + 0 / 1 = 1` of the claim. -/
theorem simulate_zero_parameter_one_num_vertices :
    ∀ gen : RandomGenerator, ∃ s', simulate 0 (new 1 gen) = .ok s' ∧
      s'.graph.num_vertices = 2 ∧ s'.graph.num_vertices ≠ 1 + 0 / 1 := by
  intro gen
  refine ⟨_, simulate_zero_new 1 gen (by decide), ?_, ?_⟩
  · rw [step_result_new_one_graph]; decide
  · rw [step_result_new_one_graph]; decide

/-- Claim C2, at failing inputs: `simulate(0)` is not a no-op.  On a fresh
process with parameter `1` it takes one step, which adds a vertex and an edge
and leaves the degree sequence `[3, 1]` and the counter at `1`; on a process
with parameter `2` that was simulated for 2 steps it moves the walker from
vertex `0` to vertex `1`. -/
theorem simulate_zero_changes_state :
    (∀ gen : RandomGenerator, ∃ s', simulate 0 (new 1 gen) = .ok s' ∧
      s'.get_degrees = [3, 1] ∧ s'.graph ≠ (new 1 gen).graph ∧ s'.counter = 1) ∧
    (∃ s1 s2, simulate 2 (new 2 (fun i => i)) = .ok s1 ∧ simulate 0 s1 = .ok s2 ∧
      s1.current = 0 ∧ s2.current = 1 ∧ s2.graph = s1.graph) := by
  constructor
  · intro gen
    refine ⟨_, simulate_zero_new 1 gen (by decide), ?_, ?_, rfl⟩
    · rw [get_degrees_eq, step_result_new_one_graph]; decide
    · rw [step_result_new_one_graph, new_graph]; decide
  · exact ⟨_, _, rfl, rfl, rfl, rfl, rfl⟩

/-- Claim C3 refuted: the constructor called with parameter `0` hands back a
process, and a step on that process evaluates `counter % parameter` with
`parameter == 0`. -/
theorem new_zero_reaches_modulo :
    (new 0 (fun _ => 0)).parameter = 0 ∧
      step (new 0 (fun _ => 0)) = .error Fault.modulo_by_zero :=
  ⟨rfl, rfl⟩

/-- Claim C3 as amended: the constructor validates nothing.  For every
parameter, `0` included, it builds the valid initial state: one vertex with a
self-loop, the walker on it, the counter at `0`, degrees `[2]`.  With
parameter `0` the failure comes in `step`, which reaches the evaluation of
`counter % parameter` with `parameter == 0`, and so does every call
`simulate(steps)` with `steps` at least `1` on that process. -/
theorem constructor_accepts_zero_parameter (p : Nat) (gen : RandomGenerator) :
    (new p gen).valid ∧ (new p gen).parameter = p ∧ (new p gen).counter = 0 ∧
      (new p gen).current = 0 ∧ (new p gen).graph.num_vertices = 1 ∧
      (new p gen).graph.m_edges = [(0, 0)] ∧ (new p gen).get_degrees = [2] ∧
      step (new 0 gen) = .error Fault.modulo_by_zero ∧
      ∀ steps, 1 ≤ steps → simulate steps (new 0 gen) = .error Fault.modulo_by_zero := by
  refine ⟨valid_new p gen, rfl, rfl, rfl, rfl, rfl, rfl,
    step_parameter_zero (new 0 gen) (valid_new 0 gen) rfl, ?_⟩
  intro steps _
  unfold simulate
  rw [UINT_SIZE_succ]
  generalize UINT_SIZE - 1 = fuel
  have hz := step_parameter_zero { new 0 gen with counter := 0 } (valid_new 0 gen) rfl
  rw [simulate_loop_succ, hz]

theorem constructor_accepts_zero_parameter_witness :
    1 ≤ 1 ∧ simulate 1 (new 0 (fun _ => 0)) = .error Fault.modulo_by_zero :=
  ⟨by decide,
    (constructor_accepts_zero_parameter 0 (fun _ => 0)).2.2.2.2.2.2.2.2 1 (by decide)⟩

/-- Claim C4: in every reachable state the entries of `get_degrees` add up to
twice the number of edges; the self-loop that the constructor adds is 1 edge
and gives its vertex the degree 2. -/
theorem handshake_reachable (s : nrrw_process) (h : s.reachable) :
    s.get_degrees.sum = 2 * s.graph.num_edges ∧
      ∀ (p : Nat) (gen : RandomGenerator),
        (new p gen).graph.num_edges = 1 ∧ (new p gen).get_degrees = [2] := by
  refine ⟨?_, fun _ _ => ⟨rfl, rfl⟩⟩
  rw [get_degrees_sum]
  exact (valid_of_reachable s h).graph_sound.handshake

theorem handshake_reachable_witness :
    (step_result (new 1 (fun _ => 0)) { m_target := 0, m_edge := 0 }).reachable ∧
      (step_result (new 1 (fun _ => 0)) { m_target := 0, m_edge := 0 }).get_degrees.sum
        = 2 * 2 :=
  ⟨reachable.step (reachable.new 1 _) step_new_one,
    (handshake_reachable _ (reachable.step (reachable.new 1 _) step_new_one)).1⟩

/-- Claim C5: in every reachable state with parameter at least `1` the walker
stands on a vertex of the graph, the out-edge list of that vertex is not
empty, the selector returns one of its records, and `step` returns. -/
theorem step_never_fails_reachable (s : nrrw_process) (h : s.reachable)
    (hp : 1 ≤ s.parameter) :
    s.current < s.graph.num_vertices ∧
      ∃ range, graph_t.out_edges s.current s.graph = .ok range ∧ range ≠ [] ∧
        s.selector 0 % range.length < range.length ∧
        (∃ r gen, random_selector.select s.selector range = .ok (r, gen) ∧ r ∈ range) ∧
        ∃ c s', step s = .ok (c, s') := by
  have hv := valid_of_reachable s h
  obtain ⟨range, hr, hne⟩ := current_range s hv
  have hpos : 0 < range.length := List.length_pos.2 hne
  have hk : s.selector 0 % range.length < range.length := Nat.mod_lt _ hpos
  obtain ⟨r, _, hstep⟩ := step_succeeds s hv (by omega)
  refine ⟨hv.current_lt, range, by simp [graph_t.out_edges, hr], hne, hk, ?_, _, _, hstep⟩
  exact ⟨range[s.selector 0 % range.length], fun i => s.selector (i + 1),
    by simp [random_selector.select, List.getElem?_eq_getElem hk], List.getElem_mem hk⟩

theorem step_never_fails_reachable_witness :
    (step_result (new 1 (fun _ => 0)) { m_target := 0, m_edge := 0 }).reachable ∧
      1 ≤ (step_result (new 1 (fun _ => 0)) { m_target := 0, m_edge := 0 }).parameter ∧
      ∃ c s', step (step_result (new 1 (fun _ => 0)) { m_target := 0, m_edge := 0 })
        = .ok (c, s') :=
  ⟨reachable.step (reachable.new 1 _) step_new_one, by decide,
    (step_never_fails_reachable _ (reachable.step (reachable.new 1 _) step_new_one)
      (by decide)).2.choose_spec.2.2.2.2⟩

/-- Claim C6: in every reachable state every vertex is joined to the initial
vertex by a path of edges. -/
theorem connected_reachable (s : nrrw_process) (h : s.reachable) :
    s.graph.connected :=
  (valid_of_reachable s h).graph_sound.connected

theorem connected_reachable_witness :
    (step_result (new 1 (fun _ => 0)) { m_target := 0, m_edge := 0 }).reachable ∧
      (step_result (new 1 (fun _ => 0)) { m_target := 0, m_edge := 0 }).graph.joined 0 1 :=
  ⟨reachable.step (reachable.new 1 _) step_new_one,
    connected_reachable _ (reachable.step (reachable.new 1 _) step_new_one) 1 (by decide)⟩

/-- Claim C7: whatever the random draws, a fresh process with parameter `3`
returns from `simulate(6)` with 3 vertices and 3 edges, and `get_degrees` then
has 3 entries, each at least `1`, that add up to `6`. -/
theorem scenario_parameter_three_steps_six :
    ∀ gen : RandomGenerator, ∃ s', simulate 6 (new 3 gen) = .ok s' ∧
      s'.graph.num_vertices = 3 ∧ s'.graph.num_edges = 3 ∧
      s'.get_degrees.length = 3 ∧ (∀ d, d ∈ s'.get_degrees → 1 ≤ d) ∧
      s'.get_degrees.sum = 6 := by
  intro gen
  obtain ⟨s', h1, h2, _, _, h5⟩ :=
    simulate_new_spec 6 3 gen (by decide) (by decide) (by decide)
  have hn : s'.graph.num_vertices = 3 := h5
  have he : s'.graph.num_edges = 3 := by rw [h2.graph_sound.edges_eq, hn]
  refine ⟨s', h1, hn, he, ?_, get_degrees_pos s' h2, ?_⟩
  · rw [get_degrees_length, hn]
  · rw [get_degrees_sum, h2.graph_sound.handshake, he]

/-- Claim C8, at the failing input `parameter = 1`, `simulate(1)` followed by
`simulate(0)`: whatever the random draws, the second call returns with 3
vertices where the first had left 2, not with the `2 + 0 / 1 = 2` of the
claim. -/
theorem resimulate_zero_adds_vertex :
    ∀ gen : RandomGenerator, ∃ s1 s2, simulate 1 (new 1 gen) = .ok s1 ∧
      simulate 0 s1 = .ok s2 ∧ s1.graph.num_vertices = 2 ∧ s2.graph.num_vertices = 3 ∧
      s2.graph.num_vertices ≠ s1.graph.num_vertices + 0 / 1 := by
  intro gen
  obtain ⟨s1, h1, h2, _, h4, h5⟩ :=
    simulate_new_spec 1 1 gen (by decide) (by decide) (by decide)
  have hp1 : s1.parameter = 1 := h4
  have hn1 : s1.graph.num_vertices = 2 := h5
  obtain ⟨s2, k1, _, _, _, k5⟩ :=
    simulate_spec 1 s1 h2 (by rw [hp1]; decide) (by decide) (by decide)
  have hn2 : s2.graph.num_vertices = 3 := by rw [k5, hn1, hp1]
  refine ⟨s1, s2, h1, by rw [simulate_zero_eq]; exact k1, hn1, hn2, ?_⟩
  rw [hn1, hn2]; decide

/-- Claim C9: for every parameter the constructor yields one vertex, one edge,
a self-loop on that vertex, the walker on that vertex and the counter at `0`,
and `get_degrees` returns `[2]`. -/
theorem constructor_state :
    ∀ (p : Nat) (gen : RandomGenerator),
      (new p gen).graph.num_vertices = 1 ∧ (new p gen).graph.vertices = [0] ∧
      (new p gen).graph.m_edges = [(0, 0)] ∧ (new p gen).graph.num_edges = 1 ∧
      (new p gen).current = 0 ∧ (new p gen).counter = 0 ∧ (new p gen).parameter = p ∧
      (new p gen).get_degrees = [2] :=
  fun _ _ => ⟨rfl, rfl, rfl, rfl, rfl, rfl, rfl, rfl⟩

/-- Claim C10: in every reachable state `get_degrees` has one entry per vertex,
entry `i` is the degree of vertex `i`, the `i`-th vertex created, and that
degree is the number of edge endpoints at vertex `i`; a self-loop has both its
endpoints there and so counts `2`. -/
theorem get_degrees_reachable (s : nrrw_process) (h : s.reachable) :
    s.get_degrees.length = s.graph.num_vertices ∧
      (∀ i, i < s.graph.num_vertices →
        s.get_degrees[i]? = some (s.degree i) ∧
        s.degree i = s.graph.incident_endpoints i) ∧
      ∀ (v : Nat) (vs : List (List stored_edge)),
        graph_t.incident_endpoints v { m_edges := [(v, v)], m_vertices := vs } = 2 := by
  refine ⟨get_degrees_length s, ?_, ?_⟩
  · intro i hi
    exact ⟨get_degrees_getElem? s i hi, (valid_of_reachable s h).graph_sound.endpoints i⟩
  · intro v vs
    simp [graph_t.incident_endpoints]

theorem get_degrees_reachable_witness :
    (step_result (new 1 (fun _ => 0)) { m_target := 0, m_edge := 0 }).reachable ∧
      (step_result (new 1 (fun _ => 0)) { m_target := 0, m_edge := 0 }).get_degrees[0]?
        = some 3 ∧
      graph_t.incident_endpoints 0
        (step_result (new 1 (fun _ => 0)) { m_target := 0, m_edge := 0 }).graph = 3 :=
  ⟨reachable.step (reachable.new 1 _) step_new_one,
    ((get_degrees_reachable _ (reachable.step (reachable.new 1 _) step_new_one)).2.1 0
      (by decide)).1,
    ((get_degrees_reachable _ (reachable.step (reachable.new 1 _) step_new_one)).2.1 0
      (by decide)).2.symm⟩

/-- Claim C11: a step, and so a `simulate` call, on a reachable state leaves
at least as many vertices and edges as there were; every vertex and every edge
of the graph before is in the graph after, and no degree has decreased. -/
theorem monotonic_growth (s : nrrw_process) (h : s.reachable) :
    (∀ c s', step s = .ok (c, s') → s.graph.within s'.graph) ∧
      (∀ steps s', simulate steps s = .ok s' → s.graph.within s'.graph) :=
  ⟨fun c s' hs => within_step s s' c (valid_of_reachable s h) hs,
    fun steps s' hs => within_simulate steps s s' (valid_of_reachable s h) hs⟩

theorem monotonic_growth_witness :
    (new 1 (fun _ => 0)).reachable ∧
      (new 1 (fun _ => 0)).graph.within
        (step_result (new 1 (fun _ => 0)) { m_target := 0, m_edge := 0 }).graph :=
  ⟨reachable.new 1 _, (monotonic_growth _ (reachable.new 1 _)).1 _ _ step_new_one⟩

/-- Claim C12: a call of `get_degrees` hands back the process as it was, so a
second call right after it returns the same sequence; the sequence depends on
the graph alone. -/
theorem get_degrees_observational (s : nrrw_process) :
    (get_degrees_call s).2 = s ∧
      (get_degrees_call (get_degrees_call s).2).1 = (get_degrees_call s).1 ∧
      ∀ t : nrrw_process, t.graph = s.graph → t.get_degrees = s.get_degrees := by
  refine ⟨rfl, rfl, ?_⟩
  intro t ht
  rw [get_degrees_eq, get_degrees_eq, ht]

/-- Claim C15: a step on a reachable state returns the incremented counter `c`
and leaves the walker on the target `w` of the selected record, a vertex of
the graph before the step.  If `c % parameter = 0` the graph has gained the
vertex with the next index and the edge from `w` to it, the new vertex has
degree `1`, the degree of `w` is up by `1` and no other degree has changed;
otherwise the graph is the same. -/
theorem step_growth_rule (s s' : nrrw_process) (c : Nat) (h : s.reachable)
    (hs : step s = .ok (c, s')) :
    c = (s.counter + 1) % UINT_SIZE ∧ s'.counter = c ∧ s'.parameter = s.parameter ∧
      (∃ range r, graph_t.out_edges s.current s.graph = .ok range ∧
        range[s.selector 0 % range.length]? = some r ∧ s'.current = r.m_target) ∧
      s'.current < s.graph.num_vertices ∧
      (c % s.parameter = 0 →
        s'.graph.num_vertices = s.graph.num_vertices + 1 ∧
        s'.graph.vertices = s.graph.vertices ++ [s.graph.num_vertices] ∧
        s'.graph.m_edges = s.graph.m_edges ++ [(s'.current, s.graph.num_vertices)] ∧
        s'.degree s.graph.num_vertices = 1 ∧
        s'.degree s'.current = s.degree s'.current + 1 ∧
        ∀ v, v ≠ s'.current → v ≠ s.graph.num_vertices → s'.degree v = s.degree v) ∧
      (c % s.parameter ≠ 0 → s'.graph = s.graph) := by
  have hv := valid_of_reachable s h
  obtain ⟨range, r, hrange, hsel, hr, _, hc, rfl⟩ := step_cases s s' c hv hs
  have hg := step_result_graph s r hr
  have hcur : (step_result s r).current = r.m_target := rfl
  rw [← hc] at hg
  refine ⟨hc, hc.symm, rfl, ⟨range, r, by simp [graph_t.out_edges, hrange], hsel, rfl⟩,
    hr, ?_, ?_⟩
  · intro hcond
    rw [if_pos hcond] at hg
    have hne : r.m_target ≠ s.graph.num_vertices := Nat.ne_of_lt hr
    refine ⟨?_, ?_, ?_, ?_, ?_, ?_⟩
    · rw [hg, graph_t.grown_num_vertices]
    · simp only [graph_t.vertices]
      rw [hg, graph_t.grown_num_vertices, List.range_succ]
    · rw [hg, hcur]; rfl
    · simp only [degree]
      rw [hg, graph_t.grown_out_degree _ _ _ hr, out_degree_of_ge _ _ (Nat.le_refl _)]
      simp [hne]
    · simp only [degree]
      rw [hg, hcur, graph_t.grown_out_degree _ _ _ hr]
      simp [hne.symm]
    · intro v hv1 hv2
      rw [hcur] at hv1
      simp only [degree]
      rw [hg, graph_t.grown_out_degree _ _ _ hr]
      simp [Ne.symm hv1, Ne.symm hv2]
  · intro hcond
    rw [if_neg hcond] at hg
    exact hg

theorem step_growth_rule_witness :
    (new 1 (fun _ => 0)).reachable ∧
      (step_result (new 1 (fun _ => 0)) { m_target := 0, m_edge := 0 }).graph.m_edges
        = (new 1 (fun _ => 0)).graph.m_edges ++ [(0, 1)] :=
  ⟨reachable.new 1 _,
    ((step_growth_rule _ _ _ (reachable.new 1 _) step_new_one).2.2.2.2.2.1
      (Nat.mod_one _)).2.2.1⟩

/-- Claim C16: on a reachable state with parameter at least `1`, whenever the
generator draws the index `k` of the out-edge list of the walker's vertex, the
step moves the walker to the target of the `k`-th record.  That record names
an edge of the graph between the old position and the new one, so the two are
adjacent in the graph before the step, and if the edge is a self-loop the
walker stays where it was. -/
theorem walker_move (s : nrrw_process) (h : s.reachable) (hp : 1 ≤ s.parameter) :
    ∃ range, graph_t.out_edges s.current s.graph = .ok range ∧
      ∀ k, k < range.length → ∀ gen : RandomGenerator, gen 0 % range.length = k →
        ∃ r e c s', range[k]? = some r ∧ s.graph.m_edges[r.m_edge]? = some e ∧
          (e = (s.current, r.m_target) ∨ e = (r.m_target, s.current)) ∧
          step { s with selector := gen } = .ok (c, s') ∧ s'.current = r.m_target ∧
          s.graph.adjacent s.current s'.current ∧ (e.1 = e.2 → s'.current = s.current) := by
  have hv := valid_of_reachable s h
  have hl := linked_of_reachable s h
  obtain ⟨range, hrange, _⟩ := current_range s hv
  refine ⟨range, by simp [graph_t.out_edges, hrange], ?_⟩
  intro k hk gen hgen
  have hmem : range[k] ∈ range := List.getElem_mem hk
  have hstep : step { s with selector := gen } =
      .ok ((s.counter + 1) % UINT_SIZE, step_result { s with selector := gen } range[k]) :=
    (step_iff _ _ _).2 ⟨range, range[k], hrange, by rw [hgen]; exact List.getElem?_eq_getElem hk,
      by show s.parameter ≠ 0; omega, rfl, rfl⟩
  rcases hl s.current range hrange range[k] hmem with he | he
  · exact ⟨range[k], _, _, _, List.getElem?_eq_getElem hk, he, Or.inl rfl, hstep, rfl,
      Or.inl (List.getElem?_mem he), fun heq => heq.symm⟩
  · exact ⟨range[k], _, _, _, List.getElem?_eq_getElem hk, he, Or.inr rfl, hstep, rfl,
      Or.inr (List.getElem?_mem he), fun heq => heq⟩

theorem walker_move_witness :
    (step_result (new 1 (fun _ => 0)) { m_target := 0, m_edge := 0 }).reachable ∧
      1 ≤ (step_result (new 1 (fun _ => 0)) { m_target := 0, m_edge := 0 }).parameter ∧
      ∃ range, graph_t.out_edges
          (step_result (new 1 (fun _ => 0)) { m_target := 0, m_edge := 0 }).current
          (step_result (new 1 (fun _ => 0)) { m_target := 0, m_edge := 0 }).graph
          = .ok range :=
  ⟨reachable.step (reachable.new 1 _) step_new_one, by decide,
    (walker_move _ (reachable.step (reachable.new 1 _) step_new_one) (by decide)).imp
      (fun _ hr => hr.1)⟩

/-- Claim C17 refuted: in the freshly constructed state the enumeration at the
walker's vertex has two entries, both for the self-loop, which is as many as
the reported degree and not one less. -/
theorem self_loop_enumerated_twice :
    graph_t.out_edges (new 1 (fun _ => 0)).current (new 1 (fun _ => 0)).graph =
        .ok [{ m_target := 0, m_edge := 0 }, { m_target := 0, m_edge := 0 }] ∧
      (new 1 (fun _ => 0)).degree 0 = 2 ∧
      ([{ m_target := 0, m_edge := 0 }, { m_target := 0, m_edge := 0 }] :
        List stored_edge).length ≠ 1 ∧
      ([{ m_target := 0, m_edge := 0 }, { m_target := 0, m_edge := 0 }] :
        List stored_edge).length ≠ (new 1 (fun _ => 0)).degree 0 - 1 :=
  ⟨rfl, rfl, by decide, by decide⟩

/-- Claim C17 as amended: the enumeration that `step` selects from has one
entry per edge endpoint at the vertex, so a self-loop appears in it twice.  In
the freshly constructed state it consists of the two records of the
self-loop; in every reachable state the enumeration at the initial vertex
begins with these two records, which name the first edge, the self-loop; and
at every vertex the number of entries is the reported degree. -/
theorem out_edges_count_is_degree (s : nrrw_process) (h : s.reachable) :
    (∀ (p : Nat) (gen : RandomGenerator),
      graph_t.out_edges (new p gen).current (new p gen).graph =
        .ok [{ m_target := 0, m_edge := 0 }, { m_target := 0, m_edge := 0 }]) ∧
      (∃ rest, graph_t.out_edges 0 s.graph =
        .ok ({ m_target := 0, m_edge := 0 } :: { m_target := 0, m_edge := 0 } :: rest)) ∧
      s.graph.m_edges[0]? = some (0, 0) ∧
      ∀ v, v < s.graph.num_vertices →
        ∃ range, graph_t.out_edges v s.graph = .ok range ∧ range.length = s.degree v := by
  have hv := valid_of_reachable s h
  refine ⟨fun _ _ => rfl, ?_, ?_, ?_⟩
  · obtain ⟨rest, hrest⟩ := loop_first_of_reachable s h
    exact ⟨rest, by simp [graph_t.out_edges, hrest]⟩
  · exact first_edge s hv (tree_shaped_of_reachable s h)
  · intro v hlt
    obtain ⟨range, h1, _, h3⟩ := out_edges_eq s v hlt
    exact ⟨range, h1, h3⟩

theorem out_edges_count_is_degree_witness :
    (step_result (new 1 (fun _ => 0)) { m_target := 0, m_edge := 0 }).reachable ∧
      ∃ range, graph_t.out_edges 0
          (step_result (new 1 (fun _ => 0)) { m_target := 0, m_edge := 0 }).graph = .ok range ∧
        range.length = 3 :=
  ⟨reachable.step (reachable.new 1 _) step_new_one,
    (out_edges_count_is_degree _ (reachable.step (reachable.new 1 _) step_new_one)).2.2.2 0
      (by decide)⟩

/-- Claim C18: on a reachable state with parameter at least `1`, and for every
`steps` that an `unsigned int` holds, `simulate(steps)` returns; the state it
returns is the one that `max steps 1` steps in a row lead to from the state
with the counter reset, its counter is `max steps 1`, and no other number of
steps leads to it. -/
theorem simulate_transitions (s : nrrw_process) (h : s.reachable) (hp : 1 ≤ s.parameter)
    (steps : Nat) (hs : steps < UINT_SIZE) :
    ∃ s', simulate steps s = .ok s' ∧
      step_n (max steps 1) { s with counter := 0 } = .ok s' ∧
      s'.counter = max steps 1 ∧
      ∀ n, n < UINT_SIZE → step_n n { s with counter := 0 } = .ok s' → n = max steps 1 := by
  have hv := valid_of_reachable s h
  have hv0 : ({ s with counter := 0 } : nrrw_process).valid := ⟨hv.graph_sound, hv.current_lt⟩
  have hU : 1 < UINT_SIZE := by decide
  have hm : max steps 1 < UINT_SIZE := by
    rcases Nat.le_total steps 1 with h1 | h1
    · rw [Nat.max_eq_right h1]; exact hU
    · rw [Nat.max_eq_left h1]; exact hs
  have hm1 : 1 ≤ max steps 1 := Nat.le_max_right _ _
  obtain ⟨s', k1, k2, k3⟩ :=
    simulate_loop_eq_step_n UINT_SIZE (max steps 1) { s with counter := 0 } hv0
      (by show s.parameter ≠ 0; omega) hm1 hm (by show max steps 1 - 0 ≤ UINT_SIZE; omega)
  have k2' : step_n (max steps 1) { s with counter := 0 } = .ok s' := k2
  have hsim : simulate steps s = .ok s' := by
    rcases Nat.eq_zero_or_pos steps with h0 | h1
    · subst h0
      rw [simulate_zero_eq]
      exact k1
    · have hmax : max steps 1 = steps := Nat.max_eq_left h1
      rw [hmax] at k1
      exact k1
  refine ⟨s', hsim, k2', k3, ?_⟩
  intro n hn hstep
  have hcnt := step_n_counter n _ s' hstep (by show 0 + n < UINT_SIZE; omega)
  have h0 : ({ s with counter := 0 } : nrrw_process).counter = 0 := rfl
  rw [h0] at hcnt
  omega

theorem simulate_transitions_witness :
    (new 2 (fun _ => 0)).reachable ∧ 1 ≤ (new 2 (fun _ => 0)).parameter ∧
      (0 : Nat) < UINT_SIZE ∧
      ∃ s', simulate 0 (new 2 (fun _ => 0)) = .ok s' ∧ s'.counter = 1 :=
  ⟨reachable.new 2 _, by decide, by decide,
    (simulate_transitions _ (reachable.new 2 _) (by decide) 0 (by decide)).imp
      (fun _ hr => ⟨hr.1, hr.2.2.1⟩)⟩

/-- Claim C19: in every reachable state the graph is a tree with one
self-loop.  There are as many edges as vertices; the first edge is the
self-loop on the initial vertex and no other edge is a self-loop; no two
edges join the same pair of vertices; and every vertex `v` other than the
initial one has the edge at position `v` to a vertex with a smaller index, and
no other edge to a vertex with a smaller index. -/
theorem tree_with_self_loop (s : nrrw_process) (h : s.reachable) :
    s.graph.num_edges = s.graph.num_vertices ∧
      s.graph.m_edges[0]? = some (0, 0) ∧
      (∀ j u v : Nat, s.graph.m_edges[j]? = some (u, v) → u = v → j = 0) ∧
      (∀ (i j : Nat) (e e' : Nat × Nat),
        s.graph.m_edges[i]? = some e → s.graph.m_edges[j]? = some e' →
        (e' = e ∨ e' = (e.2, e.1)) → i = j) ∧
      ∀ v, 0 < v → v < s.graph.num_vertices →
        ∃ u, u < v ∧ s.graph.m_edges[v]? = some (u, v) ∧
          ∀ j a b : Nat, s.graph.m_edges[j]? = some (a, b) →
            (a = v ∧ b < v ∨ b = v ∧ a < v) → j = v := by
  have hv := valid_of_reachable s h
  have ht := tree_shaped_of_reachable s h
  have he := hv.graph_sound.edges_eq
  refine ⟨he, first_edge s hv ht, ?_, ?_, ?_⟩
  · intro j u v hj huv
    obtain ⟨h1, h2⟩ := ht j u v hj
    rcases h2 with ⟨h2, _⟩ | h2
    · exact h2
    · omega
  · intro i j e e' hi hj hee
    obtain ⟨a, b⟩ := e
    obtain ⟨a', b'⟩ := e'
    obtain ⟨h1, h2⟩ := ht i a b hi
    obtain ⟨h3, h4⟩ := ht j a' b' hj
    rcases hee with hee | hee
    · simp only [Prod.mk.injEq] at hee
      omega
    · simp only [Prod.mk.injEq] at hee
      omega
  · intro v hpos hlt
    have hlen : v < s.graph.m_edges.length := by
      unfold graph_t.num_edges at he
      omega
    have hget := List.getElem?_eq_getElem hlen
    obtain ⟨h1, h2⟩ := ht v (s.graph.m_edges[v]).1 (s.graph.m_edges[v]).2 hget
    refine ⟨(s.graph.m_edges[v]).1, by omega, ?_, ?_⟩
    · rw [hget]
      exact congrArg some (Prod.ext rfl h1)
    · intro j a b hj hab
      obtain ⟨h3, h4⟩ := ht j a b hj
      omega

theorem tree_with_self_loop_witness :
    (step_result (new 1 (fun _ => 0)) { m_target := 0, m_edge := 0 }).reachable ∧
      (step_result (new 1 (fun _ => 0)) { m_target := 0, m_edge := 0 }).graph.num_edges = 2 ∧
      (step_result (new 1 (fun _ => 0)) { m_target := 0, m_edge := 0 }).graph.num_vertices
        = 2 :=
  ⟨reachable.step (reachable.new 1 _) step_new_one, rfl,
    (tree_with_self_loop _ (reachable.step (reachable.new 1 _) step_new_one)).1.symm.trans
      rfl⟩

/-- Claim C13, at the failing input `parameter = 1`, `steps = 1`, `count = 2`:
the first loop of `main` constructs 2 processes, each with its `parameter`
bound to a temporary that is destroyed before the second loop starts; the
second loop then reads through the dangling reference in the first `simulate`
call it makes, whatever the generators, and writes no degree file with
defined content. -/
theorem batch_run_reads_destroyed_parameter :
    ∀ seeds : Nat → RandomGenerator,
      (construct_simulations 1 2 seeds).length = 2 ∧
      (construct_simulations 1 2 seeds).map (fun h => h.parameter_alive) = [false, false] ∧
      (construct_simulations 1 2 seeds).map (fun h => h.process.parameter) = [1, 1] ∧
      main 1 1 2 seeds = .error Fault.dangling_reference :=
  fun seeds =>
    ⟨construct_simulations_length 1 2 seeds, rfl, rfl,
      main_constructed 1 1 2 seeds (by decide)⟩

/-- Claim C14, at the failing input `parameter = 1`, `steps = 1`, `count = 2`:
the result of a run is not settled by the parameter, `steps` and the draws of
that run.  Whichever of the two runs is taken, and whichever order the loop
bodies are run in, its `simulate` call reads `parameter` through a reference
to a destroyed object. -/
theorem run_reads_destroyed_parameter :
    ∀ seeds : Nat → RandomGenerator,
      loop_body 1 0 { simulations := construct_simulations 1 2 seeds, files := [] } =
        .error Fault.dangling_reference ∧
      loop_body 1 1 { simulations := construct_simulations 1 2 seeds, files := [] } =
        .error Fault.dangling_reference ∧
      run_order 1 [0, 1] { simulations := construct_simulations 1 2 seeds, files := [] } =
        .error Fault.dangling_reference ∧
      run_order 1 [1, 0] { simulations := construct_simulations 1 2 seeds, files := [] } =
        .error Fault.dangling_reference :=
  fun seeds =>
    ⟨loop_body_constructed 1 1 2 seeds [] 0 (by decide),
      loop_body_constructed 1 1 2 seeds [] 1 (by decide),
      run_order_constructed 1 1 2 seeds 0 [1] (by decide),
      run_order_constructed 1 1 2 seeds 1 [0] (by decide)⟩

end Nrrw
